import Mathlib

/-!
Shallow embedding of the mybpe byte-pair-encoding tokenizer
(src/_mybpe/src/lib.rs) together with a verification of its
natural-language specification.

Modelling conventions: token ids, raw bytes and occurrence counts are
natural numbers.  The `HashMap<Pair, TokenId>` of merges is modelled as
an association list with insert-overwrite semantics (`lookupM`,
`insertM`).  The unspecified iteration order of the ephemeral
pair-count `HashMap` inside `train` is modelled by an oracle `ord`
producing the count entries in an arbitrary order; `ValidOrd` says the
oracle lists exactly the entries of the count map.  The regex chunker
is modelled by its contract `Chunking` (non-empty chunks concatenating
to the input byte sequence); all tokenizer operations take the chunk
decomposition of their text argument as input.
-/

namespace MyBpe

abbrev TokenId := Nat

abbrev TPair := TokenId × TokenId

abbrev Merges := List (TPair × TokenId)

/-- Lookup in the merge table, modelling `HashMap::get` on `self.merges`. -/
def lookupM : Merges → TPair → Option TokenId
  | [], _ => none
  | e :: rest, p => if e.1 = p then some e.2 else lookupM rest p

/-- Insertion into the merge table, modelling `HashMap::insert` on
`self.merges` (overwrites the binding of a key already present, appends
a fresh key). -/
def insertM : Merges → TPair → TokenId → Merges
  | [], p, n => [(p, n)]
  | e :: rest, p, n => if e.1 = p then (p, n) :: rest else e :: insertM rest p n

/-- Embedding of `Tokenizer::merge_pair` (src/_mybpe/src/lib.rs lines
19-32): one left-to-right pass replacing every non-overlapping
occurrence of `pair` by `newId`. -/
def merge_pair (tokens : List TokenId) (pair : TPair) (newId : TokenId) : List TokenId :=
  match tokens with
  | a :: b :: rest =>
    if a = pair.1 ∧ b = pair.2 then newId :: merge_pair rest pair newId
    else a :: merge_pair (b :: rest) pair newId
  | other => other

/-- Embedding of `slice::windows(2)`: the list of adjacent pairs of a
symbol sequence. -/
def windows2 : List TokenId → List TPair
  | a :: b :: rest => (a, b) :: windows2 (b :: rest)
  | _ => []

/-- One step of the scan in `find_lowest_token_merge_in_chunk`: keep
the table entry with the smallest token id seen so far (the first one
wins on ties, by the strict comparison in the source). -/
def find_step (m : Merges) (best : Option (TPair × TokenId)) (pr : TPair) :
    Option (TPair × TokenId) :=
  match lookupM m pr with
  | none => best
  | some tid =>
    match best with
    | none => some (pr, tid)
    | some b => if tid < b.2 then some (pr, tid) else some b

/-- Embedding of `Tokenizer::find_lowest_token_merge_in_chunk`
(src/_mybpe/src/lib.rs lines 34-47): fold over the adjacent pairs,
keeping the table entry with the smallest token id. -/
def find_lowest_token_merge_in_chunk (m : Merges) (chunk : List TokenId) :
    Option (TPair × TokenId) :=
  (windows2 chunk).foldl (find_step m) none

/-- The per-chunk merge loop of `Tokenizer::encode` (src/_mybpe/src/lib.rs
lines 127-136), with explicit fuel; `encode_chunk` supplies fuel equal to
the chunk length, which is shown below to reach the loop's fixpoint. -/
def encode_chunk_loop (m : Merges) : Nat → List TokenId → List TokenId
  | 0, chunk => chunk
  | fuel + 1, chunk =>
    match find_lowest_token_merge_in_chunk m chunk with
    | none => chunk
    | some (pr, tid) => encode_chunk_loop m fuel (merge_pair chunk pr tid)

def encode_chunk (m : Merges) (chunk : List TokenId) : List TokenId :=
  encode_chunk_loop m chunk.length chunk

/-- Embedding of `Tokenizer::encode` (src/_mybpe/src/lib.rs lines
116-143) on the chunk decomposition of the text: every chunk is reduced
independently and the results are concatenated in chunk order. -/
def encode (m : Merges) (chunks : List (List TokenId)) : List TokenId :=
  (chunks.map (encode_chunk m)).flatten

/-- All adjacent pairs over all chunks, with multiplicity. -/
def all_pairs (chunks : List (List TokenId)) : List TPair :=
  (chunks.map windows2).flatten

/-- Occurrence count of one adjacent pair across all chunks: the value
stored for that pair in the `token_count` map of `train`. -/
def count_pair (chunks : List (List TokenId)) (p : TPair) : Nat :=
  (all_pairs chunks).count p

/-- The entries of the `token_count` map built by one iteration of
`train`: one entry per distinct adjacent pair, with its count. -/
def count_entries (chunks : List (List TokenId)) : List (TPair × Nat) :=
  (all_pairs chunks).dedup.map (fun p => (p, count_pair chunks p))

/-- One step of `Iterator::max_by_key`: keep the entry with the larger
count, the later one winning on ties (Rust's `max_by_key` returns the
last maximal element). -/
def max_step (best : Option (TPair × Nat)) (x : TPair × Nat) : Option (TPair × Nat) :=
  match best with
  | none => some x
  | some b => if b.2 ≤ x.2 then some x else some b

/-- Embedding of `Iterator::max_by_key` as used on `token_count.iter()`. -/
def max_by_key (l : List (TPair × Nat)) : Option (TPair × Nat) :=
  l.foldl max_step none

/-- The pair selected by one iteration of `train`, given the oracle
`ord` fixing the iteration order of the `token_count` map. -/
def select (ord : List (List TokenId) → List (TPair × Nat))
    (chunks : List (List TokenId)) : Option TPair :=
  (max_by_key (ord chunks)).map Prod.fst

/-- An oracle is valid when it lists exactly the entries of the count
map, in some order. -/
def ValidOrd (ord : List (List TokenId) → List (TPair × Nat)) : Prop :=
  ∀ chunks, (ord chunks).Perm (count_entries chunks)

/-- One concrete valid iteration order: the canonical entry list itself. -/
def ord_id : List (List TokenId) → List (TPair × Nat) := count_entries

/-- The training loop of `Tokenizer::train` (src/_mybpe/src/lib.rs lines
91-113).  `fuel` is the number of remaining iterations of
`while current_token < vocab_size`, i.e. `vocab_size - cur`. -/
def train_loop (ord : List (List TokenId) → List (TPair × Nat)) :
    Nat → TokenId → Merges → List (List TokenId) → Merges × List (List TokenId)
  | 0, _, m, chunks => (m, chunks)
  | fuel + 1, cur, m, chunks =>
    match select ord chunks with
    | none => (m, chunks)
    | some p =>
      train_loop ord fuel (cur + 1) (insertM m p cur)
        (chunks.map (fun c => merge_pair c p cur))

/-- Embedding of `Tokenizer::train` on the chunk decomposition of the
text: `current_token` starts at 256 on every call, and the loop runs
while it is below `vocabSize`. -/
def train (ord : List (List TokenId) → List (TPair × Nat))
    (m : Merges) (chunks : List (List TokenId)) (vocabSize : Nat) : Merges :=
  (train_loop ord (vocabSize - 256) 256 m chunks).1

/-- The 256 base entries pushed by `get_mergeable_ranks` before any merge. -/
def base_ranks : List (List Nat × TokenId) :=
  (List.range 256).map (fun i => ([i], i))

/-- One push of the loop over sorted merges in `get_mergeable_ranks`:
the byte sequences of the pair's components are read by positional
index into the table built so far. -/
def push_rank (ranks : List (List Nat × TokenId)) (e : TPair × TokenId) :
    List (List Nat × TokenId) :=
  ranks ++ [((ranks.getD e.1.1 ([], 0)).1 ++ (ranks.getD e.1.2 ([], 0)).1, e.2)]

/-- The merge entries sorted by token id (`sort_by_key` in the source;
insertion sort is stable, like Rust's sort). -/
def sorted_merges (m : Merges) : Merges :=
  m.insertionSort (fun a b => a.2 ≤ b.2)

instance : IsTotal (TPair × TokenId) (fun a b => a.2 ≤ b.2) :=
  ⟨fun a b => Nat.le_total a.2 b.2⟩

instance : IsTrans (TPair × TokenId) (fun a b => a.2 ≤ b.2) :=
  ⟨fun _ _ _ h1 h2 => le_trans h1 h2⟩

/-- Embedding of `Tokenizer::get_mergeable_ranks` (src/_mybpe/src/lib.rs
lines 149-166). -/
def get_mergeable_ranks (m : Merges) : List (List Nat × TokenId) :=
  (sorted_merges m).foldl push_rank base_ranks

/-- Contract of the regex chunker (spec section 4.1): the chunks are
non-empty and concatenate to the input text, read as its byte sequence. -/
def Chunking (text : List Nat) (chunks : List (List TokenId)) : Prop :=
  chunks.flatten = text ∧ ∀ c ∈ chunks, c ≠ []

/-- Reference definition of the Merge Applier, written from the spec's
words (section 4.2): scan left to right by position; at each position,
if the current and next symbol equal the pair's components, emit the
replacement id and advance by 2, otherwise emit the current symbol and
advance by 1.  The fuel argument bounds the number of emissions, which
never exceeds the input length. -/
def merge_scan (tokens : List TokenId) (pair : TPair) (newId : TokenId) :
    Nat → Nat → List TokenId
  | 0, _ => []
  | fuel + 1, i =>
    if i < tokens.length then
      if i + 1 < tokens.length ∧ tokens.getD i 0 = pair.1 ∧ tokens.getD (i + 1) 0 = pair.2 then
        newId :: merge_scan tokens pair newId fuel (i + 2)
      else
        tokens.getD i 0 :: merge_scan tokens pair newId fuel (i + 1)
    else []

/-- The spec-side Merge Applier: start the scan at position 0. -/
def merge_pair_spec (tokens : List TokenId) (pair : TPair) (newId : TokenId) :
    List TokenId :=
  merge_scan tokens pair newId tokens.length 0

/-- Spec-side description of one encoder step on a chunk (section 4.4):
apply, via the Merge Applier, an adjacent pair present in the merge
table whose assigned id is smallest among all table-present adjacent
pairs of the chunk. -/
def EncStep (m : Merges) (c c2 : List TokenId) : Prop :=
  ∃ pr tid, pr ∈ windows2 c ∧ lookupM m pr = some tid ∧
    (∀ q ∈ windows2 c, ∀ qid, lookupM m q = some qid → tid ≤ qid) ∧
    c2 = merge_pair c pr tid

/-- No adjacent pair of the chunk is present in the merge table: the
termination condition of the encoder's per-chunk loop. -/
def NoTablePair (m : Merges) (c : List TokenId) : Prop :=
  ∀ q ∈ windows2 c, lookupM m q = none

/-- Every symbol of every chunk is below the bound. -/
def SymBound (bound : Nat) (chunks : List (List TokenId)) : Prop :=
  ∀ c ∈ chunks, ∀ s ∈ c, s < bound

/-- The contiguous-id invariant of the spec (section 3): the values of
the merge table are exactly 256, 257, …, 255+k where k is the number of
entries. -/
def ContiguousIds (m : Merges) : Prop :=
  (m.map Prod.snd).Perm (List.range' 256 m.length)

/-- The build-order part of the spec's merge-table invariant (section
3): each merge's components were defined before the merge itself, so
replaying merges in increasing id order is well defined. -/
def BuildOrder (m : Merges) : Prop :=
  ∀ e ∈ m, e.1.1 < e.2 ∧ e.1.2 < e.2

/-- Inductive invariant of the training loop of a single `train` call
starting from the empty table: symbols stay below the next id, the
recorded values are exactly 256 … cur-1 in order, and no recorded pair
occurs adjacently in the current chunks any more. -/
def TrainInv (cur : Nat) (m : Merges) (chunks : List (List TokenId)) : Prop :=
  256 ≤ cur ∧ SymBound cur chunks ∧
  m.map Prod.snd = List.range' 256 (cur - 256) ∧
  ∀ e ∈ m, e.1 ∉ all_pairs chunks ∧ e.1.1 < cur ∧ e.1.2 < cur

/-! ### Basic lemmas about `windows2` -/

theorem windows2_nil : windows2 [] = [] := rfl

theorem windows2_single (a : TokenId) : windows2 [a] = [] := rfl

theorem windows2_cons2 (a b : TokenId) (l : List TokenId) :
    windows2 (a :: b :: l) = (a, b) :: windows2 (b :: l) := rfl

theorem mem_windows2_cons {a : TokenId} {l : List TokenId} {q : TPair}
    (h : q ∈ windows2 (a :: l)) :
    (∃ b t, l = b :: t ∧ q = (a, b)) ∨ q ∈ windows2 l := by
  cases l with
  | nil => simp [windows2] at h
  | cons b t =>
    rw [windows2_cons2] at h
    rcases List.mem_cons.mp h with h | h
    · exact Or.inl ⟨b, t, rfl, h⟩
    · exact Or.inr h

theorem mem_windows2_of_mem_tail {a : TokenId} {l : List TokenId} {q : TPair}
    (h : q ∈ windows2 l) : q ∈ windows2 (a :: l) := by
  cases l with
  | nil => simp [windows2] at h
  | cons b t => rw [windows2_cons2]; exact List.mem_cons_of_mem _ h

theorem windows2_mem_components :
    ∀ (l : List TokenId) (q : TPair), q ∈ windows2 l → q.1 ∈ l ∧ q.2 ∈ l
  | [], _, h => by simp [windows2] at h
  | [_], _, h => by simp [windows2] at h
  | a :: b :: rest, q, h => by
    rw [windows2_cons2] at h
    rcases List.mem_cons.mp h with h1 | h1
    · subst h1
      exact ⟨List.mem_cons_self _ _, List.mem_cons_of_mem _ (List.mem_cons_self _ _)⟩
    · have hq := windows2_mem_components (b :: rest) q h1
      exact ⟨List.mem_cons_of_mem _ hq.1, List.mem_cons_of_mem _ hq.2⟩

/-! ### Basic lemmas about `merge_pair` -/

theorem merge_pair_nil (p : TPair) (n : TokenId) : merge_pair [] p n = [] := rfl

theorem merge_pair_single (a : TokenId) (p : TPair) (n : TokenId) :
    merge_pair [a] p n = [a] := rfl

theorem merge_pair_cons2_pos (a b : TokenId) (rest : List TokenId) (p : TPair)
    (n : TokenId) (h : a = p.1 ∧ b = p.2) :
    merge_pair (a :: b :: rest) p n = n :: merge_pair rest p n := by
  simp only [merge_pair]
  rw [if_pos h]

theorem merge_pair_cons2_neg (a b : TokenId) (rest : List TokenId) (p : TPair)
    (n : TokenId) (h : ¬(a = p.1 ∧ b = p.2)) :
    merge_pair (a :: b :: rest) p n = a :: merge_pair (b :: rest) p n := by
  simp only [merge_pair]
  rw [if_neg h]

theorem length_merge_pair_le (p : TPair) (n : TokenId) :
    ∀ t : List TokenId, (merge_pair t p n).length ≤ t.length
  | [] => le_refl _
  | [_] => le_refl _
  | a :: b :: rest => by
    by_cases hc : a = p.1 ∧ b = p.2
    · rw [merge_pair_cons2_pos _ _ _ _ _ hc]
      have h1 := length_merge_pair_le p n rest
      simp only [List.length_cons]
      omega
    · rw [merge_pair_cons2_neg _ _ _ _ _ hc]
      have h1 := length_merge_pair_le p n (b :: rest)
      simp only [List.length_cons] at h1 ⊢
      omega

theorem length_merge_pair_lt (p : TPair) (n : TokenId) :
    ∀ t : List TokenId, p ∈ windows2 t → (merge_pair t p n).length < t.length
  | [], h => by simp [windows2] at h
  | [_], h => by simp [windows2] at h
  | a :: b :: rest, h => by
    by_cases hc : a = p.1 ∧ b = p.2
    · rw [merge_pair_cons2_pos _ _ _ _ _ hc]
      have h1 := length_merge_pair_le p n rest
      simp only [List.length_cons]
      omega
    · rw [merge_pair_cons2_neg _ _ _ _ _ hc]
      have hmem : p ∈ windows2 (b :: rest) := by
        rw [windows2_cons2] at h
        rcases List.mem_cons.mp h with h1 | h1
        · subst h1; exact absurd ⟨rfl, rfl⟩ hc
        · exact h1
      have h1 := length_merge_pair_lt p n (b :: rest) hmem
      simp only [List.length_cons] at h1 ⊢
      omega

theorem mem_merge_pair (p : TPair) (n : TokenId) :
    ∀ (t : List TokenId) (s : TokenId), s ∈ merge_pair t p n → s ∈ t ∨ s = n
  | [], s, h => by simp [merge_pair_nil] at h
  | [a], s, h => by rw [merge_pair_single] at h; exact Or.inl h
  | a :: b :: rest, s, h => by
    by_cases hc : a = p.1 ∧ b = p.2
    · rw [merge_pair_cons2_pos _ _ _ _ _ hc] at h
      rcases List.mem_cons.mp h with h1 | h1
      · exact Or.inr h1
      · rcases mem_merge_pair p n rest s h1 with h2 | h2
        · exact Or.inl (List.mem_cons_of_mem _ (List.mem_cons_of_mem _ h2))
        · exact Or.inr h2
    · rw [merge_pair_cons2_neg _ _ _ _ _ hc] at h
      rcases List.mem_cons.mp h with h1 | h1
      · exact Or.inl (by simp [h1])
      · rcases mem_merge_pair p n (b :: rest) s h1 with h2 | h2
        · exact Or.inl (List.mem_cons_of_mem _ h2)
        · exact Or.inr h2

theorem merge_pair_head (p : TPair) (n : TokenId) (a : TokenId) (rest : List TokenId) :
    (∃ t, merge_pair (a :: rest) p n = a :: t) ∨
      (∃ t, merge_pair (a :: rest) p n = n :: t) := by
  cases rest with
  | nil => exact Or.inl ⟨[], merge_pair_single a p n⟩
  | cons b t =>
    by_cases hc : a = p.1 ∧ b = p.2
    · exact Or.inr ⟨_, merge_pair_cons2_pos _ _ _ _ _ hc⟩
    · exact Or.inl ⟨_, merge_pair_cons2_neg _ _ _ _ _ hc⟩

theorem windows2_merge_pair (p : TPair) (n : TokenId) :
    ∀ (t : List TokenId) (q : TPair), q ∈ windows2 (merge_pair t p n) →
      q ∈ windows2 t ∨ q.1 = n ∨ q.2 = n
  | [], q, h => by simp [merge_pair_nil, windows2] at h
  | [a], q, h => by simp [merge_pair_single, windows2] at h
  | a :: b :: rest, q, h => by
    by_cases hc : a = p.1 ∧ b = p.2
    · rw [merge_pair_cons2_pos _ _ _ _ _ hc] at h
      rcases mem_windows2_cons h with ⟨y, t, _, hq⟩ | h1
      · subst hq; exact Or.inr (Or.inl rfl)
      · rcases windows2_merge_pair p n rest q h1 with h2 | h2
        · exact Or.inl (mem_windows2_of_mem_tail (mem_windows2_of_mem_tail h2))
        · exact Or.inr h2
    · rw [merge_pair_cons2_neg _ _ _ _ _ hc] at h
      rcases mem_windows2_cons h with ⟨y, t, ht, hq⟩ | h1
      · subst hq
        rcases merge_pair_head p n b rest with ⟨t2, ht2⟩ | ⟨t2, ht2⟩
        · have hy : y = b := by rw [ht2] at ht; exact (List.cons.injEq _ _ _ _ ▸ ht).1.symm
          subst hy
          exact Or.inl (by rw [windows2_cons2]; exact List.mem_cons_self _ _)
        · have hy : y = n := by rw [ht2] at ht; exact (List.cons.injEq _ _ _ _ ▸ ht).1.symm
          subst hy
          exact Or.inr (Or.inr rfl)
      · rcases windows2_merge_pair p n (b :: rest) q h1 with h2 | h2
        · exact Or.inl (mem_windows2_of_mem_tail h2)
        · exact Or.inr h2

theorem merge_pair_removes (p : TPair) (n : TokenId) (h1 : p.1 ≠ n) (h2 : p.2 ≠ n) :
    ∀ t : List TokenId, p ∉ windows2 (merge_pair t p n)
  | [], h => by simp [merge_pair_nil, windows2] at h
  | [a], h => by simp [merge_pair_single, windows2] at h
  | a :: b :: rest, h => by
    by_cases hc : a = p.1 ∧ b = p.2
    · rw [merge_pair_cons2_pos _ _ _ _ _ hc] at h
      rcases mem_windows2_cons h with ⟨y, t, _, hq⟩ | hmem
      · exact h1 (by rw [hq])
      · exact merge_pair_removes p n h1 h2 rest hmem
    · rw [merge_pair_cons2_neg _ _ _ _ _ hc] at h
      rcases mem_windows2_cons h with ⟨y, t, ht, hq⟩ | hmem
      · rcases merge_pair_head p n b rest with ⟨t2, ht2⟩ | ⟨t2, ht2⟩
        · have hy : y = b := by rw [ht2] at ht; exact (List.cons.injEq _ _ _ _ ▸ ht).1.symm
          exact hc ⟨by rw [hq], by rw [hq, hy]⟩
        · have hy : y = n := by rw [ht2] at ht; exact (List.cons.injEq _ _ _ _ ▸ ht).1.symm
          exact h2 (by rw [hq, hy])
      · exact merge_pair_removes p n h1 h2 (b :: rest) hmem

/-! ### Lemmas about the merge-table operations -/

theorem insertM_length_ge :
    ∀ (m : Merges) (p : TPair) (n : TokenId), m.length ≤ (insertM m p n).length
  | [], _, _ => by simp [insertM]
  | e :: rest, p, n => by
    by_cases h : e.1 = p
    · simp only [insertM, if_pos h, List.length_cons]
      exact le_refl _
    · simp only [insertM, if_neg h, List.length_cons]
      exact Nat.succ_le_succ (insertM_length_ge rest p n)

theorem insertM_length_le :
    ∀ (m : Merges) (p : TPair) (n : TokenId), (insertM m p n).length ≤ m.length + 1
  | [], _, _ => by simp [insertM]
  | e :: rest, p, n => by
    by_cases h : e.1 = p
    · simp only [insertM, if_pos h, List.length_cons]
      omega
    · simp only [insertM, if_neg h, List.length_cons]
      exact Nat.succ_le_succ (insertM_length_le rest p n)

theorem insertM_of_not_mem :
    ∀ (m : Merges) (p : TPair) (n : TokenId), (∀ e ∈ m, e.1 ≠ p) →
      insertM m p n = m ++ [(p, n)]
  | [], _, _, _ => rfl
  | e :: rest, p, n, h => by
    have he : e.1 ≠ p := h e (List.mem_cons_self _ _)
    simp only [insertM, if_neg he, List.cons_append, List.cons.injEq, true_and]
    exact insertM_of_not_mem rest p n (fun x hx => h x (List.mem_cons_of_mem _ hx))

/-! ### Characterization of the scan for the lowest-id merge -/

theorem find_step_none (m : Merges) (acc : Option (TPair × TokenId)) (pr : TPair)
    (h : find_step m acc pr = none) : acc = none ∧ lookupM m pr = none := by
  cases hl : lookupM m pr with
  | none =>
    simp only [find_step, hl] at h
    exact ⟨h, rfl⟩
  | some tid =>
    exfalso
    cases acc with
    | none => simp [find_step, hl] at h
    | some b =>
      simp only [find_step, hl] at h
      split_ifs at h

theorem find_step_some (m : Merges) (acc : Option (TPair × TokenId)) (q : TPair)
    (x : TPair × TokenId) (h : find_step m acc q = some x) :
    ((x.1 = q ∧ lookupM m q = some x.2) ∨ acc = some x) ∧
    (∀ qid, lookupM m q = some qid → x.2 ≤ qid) ∧
    (∀ a, acc = some a → x.2 ≤ a.2) := by
  cases hl : lookupM m q with
  | none =>
    simp only [find_step, hl] at h
    refine ⟨Or.inr h, ?_, ?_⟩
    · intro qid hq; cases hq
    · intro a ha; rw [ha] at h; cases h; exact le_refl _
  | some tid =>
    cases acc with
    | none =>
      simp only [find_step, hl] at h
      cases h
      refine ⟨Or.inl ⟨rfl, rfl⟩, ?_, ?_⟩
      · intro qid hq; cases hq; exact le_refl _
      · intro a ha; cases ha
    | some bb =>
      simp only [find_step, hl] at h
      by_cases hlt : tid < bb.2
      · rw [if_pos hlt] at h
        cases h
        refine ⟨Or.inl ⟨rfl, rfl⟩, ?_, ?_⟩
        · intro qid hq; cases hq; exact le_refl _
        · intro a ha; cases ha; exact le_of_lt hlt
      · rw [if_neg hlt] at h
        cases h
        refine ⟨Or.inr rfl, ?_, ?_⟩
        · intro qid hq; cases hq; exact Nat.le_of_not_lt hlt
        · intro a ha; cases ha; exact le_refl _

theorem find_fold_none (m : Merges) :
    ∀ (ws : List TPair) (acc : Option (TPair × TokenId)),
      ws.foldl (find_step m) acc = none →
      acc = none ∧ ∀ q ∈ ws, lookupM m q = none
  | [], acc, h => ⟨h, by simp⟩
  | q :: rest, acc, h => by
    rw [List.foldl_cons] at h
    have hr := find_fold_none m rest (find_step m acc q) h
    have hs := find_step_none m acc q hr.1
    refine ⟨hs.1, ?_⟩
    intro x hx
    rcases List.mem_cons.mp hx with h1 | h1
    · subst h1; exact hs.2
    · exact hr.2 x h1

theorem find_fold_spec (m : Merges) :
    ∀ (ws : List TPair) (acc : Option (TPair × TokenId)) (b : TPair × TokenId),
      ws.foldl (find_step m) acc = some b →
      ((b.1 ∈ ws ∧ lookupM m b.1 = some b.2) ∨ acc = some b) ∧
      (∀ q ∈ ws, ∀ qid, lookupM m q = some qid → b.2 ≤ qid) ∧
      (∀ a, acc = some a → b.2 ≤ a.2)
  | [], acc, b, h => by
    refine ⟨Or.inr h, by simp, ?_⟩
    intro a ha; rw [ha] at h; cases h; exact le_refl _
  | q :: rest, acc, b, h => by
    rw [List.foldl_cons] at h
    obtain ⟨ih1, ih2, ih3⟩ := find_fold_spec m rest (find_step m acc q) b h
    refine ⟨?_, ?_, ?_⟩
    · rcases ih1 with h1 | h1
      · exact Or.inl ⟨List.mem_cons_of_mem _ h1.1, h1.2⟩
      · obtain ⟨hs1, _, _⟩ := find_step_some m acc q b h1
        rcases hs1 with h2 | h2
        · exact Or.inl ⟨by rw [h2.1]; exact List.mem_cons_self _ _, by rw [h2.1]; exact h2.2⟩
        · exact Or.inr h2
    · intro x hx qid hq
      rcases List.mem_cons.mp hx with h1 | h1
      · subst h1
        cases hacc : find_step m acc x with
        | none =>
          have := (find_step_none m acc x hacc).2
          rw [this] at hq; cases hq
        | some a2 =>
          obtain ⟨_, hs2, _⟩ := find_step_some m acc x a2 hacc
          exact le_trans (ih3 a2 hacc) (hs2 qid hq)
      · exact ih2 x h1 qid hq
    · intro a ha
      cases hacc : find_step m acc q with
      | none =>
        obtain ⟨h1, _⟩ := find_step_none m acc q hacc
        rw [ha] at h1; cases h1
      | some a2 =>
        obtain ⟨_, _, hs3⟩ := find_step_some m acc q a2 hacc
        exact le_trans (ih3 a2 hacc) (hs3 a ha)

theorem find_lowest_none (m : Merges) (chunk : List TokenId)
    (h : find_lowest_token_merge_in_chunk m chunk = none) :
    ∀ q ∈ windows2 chunk, lookupM m q = none :=
  (find_fold_none m (windows2 chunk) none h).2

theorem find_lowest_some (m : Merges) (chunk : List TokenId) (pr : TPair) (tid : TokenId)
    (h : find_lowest_token_merge_in_chunk m chunk = some (pr, tid)) :
    pr ∈ windows2 chunk ∧ lookupM m pr = some tid ∧
      ∀ q ∈ windows2 chunk, ∀ qid, lookupM m q = some qid → tid ≤ qid := by
  obtain ⟨h1, h2, _⟩ := find_fold_spec m (windows2 chunk) none (pr, tid) h
  rcases h1 with h1 | h1
  · exact ⟨h1.1, h1.2, fun q hq qid hql => h2 q hq qid hql⟩
  · simp at h1

/-! ### Characterization of `max_by_key` -/

theorem max_step_some (acc : Option (TPair × Nat)) (x y : TPair × Nat)
    (h : max_step acc x = some y) :
    (y = x ∨ acc = some y) ∧ x.2 ≤ y.2 ∧ (∀ a, acc = some a → a.2 ≤ y.2) := by
  cases acc with
  | none =>
    simp only [max_step] at h
    cases h
    exact ⟨Or.inl rfl, le_refl _, fun a ha => by cases ha⟩
  | some bb =>
    simp only [max_step] at h
    by_cases hle : bb.2 ≤ x.2
    · rw [if_pos hle] at h
      cases h
      exact ⟨Or.inl rfl, le_refl _, fun a ha => by cases ha; exact hle⟩
    · rw [if_neg hle] at h
      cases h
      exact ⟨Or.inr rfl, le_of_lt (Nat.lt_of_not_le hle), fun a ha => by cases ha; exact le_refl _⟩

theorem max_step_ne_none (acc : Option (TPair × Nat)) (x : TPair × Nat) :
    max_step acc x ≠ none := by
  cases acc with
  | none => simp [max_step]
  | some bb =>
    simp only [max_step]
    split_ifs <;> simp

theorem max_fold_none :
    ∀ (l : List (TPair × Nat)) (acc : Option (TPair × Nat)),
      l.foldl max_step acc = none → acc = none ∧ l = []
  | [], acc, h => ⟨h, rfl⟩
  | x :: rest, acc, h => by
    rw [List.foldl_cons] at h
    have hr := max_fold_none rest (max_step acc x) h
    exact absurd hr.1 (max_step_ne_none acc x)

theorem max_fold_spec :
    ∀ (l : List (TPair × Nat)) (acc : Option (TPair × Nat)) (b : TPair × Nat),
      l.foldl max_step acc = some b →
      (b ∈ l ∨ acc = some b) ∧ (∀ x ∈ l, x.2 ≤ b.2) ∧ (∀ a, acc = some a → a.2 ≤ b.2)
  | [], acc, b, h => by
    refine ⟨Or.inr h, by simp, ?_⟩
    intro a ha; rw [ha] at h; cases h; exact le_refl _
  | x :: rest, acc, b, h => by
    rw [List.foldl_cons] at h
    obtain ⟨ih1, ih2, ih3⟩ := max_fold_spec rest (max_step acc x) b h
    refine ⟨?_, ?_, ?_⟩
    · rcases ih1 with h1 | h1
      · exact Or.inl (List.mem_cons_of_mem _ h1)
      · obtain ⟨hs1, _, _⟩ := max_step_some acc x b h1
        rcases hs1 with h2 | h2
        · exact Or.inl (by rw [h2]; exact List.mem_cons_self _ _)
        · exact Or.inr h2
    · intro y hy
      rcases List.mem_cons.mp hy with h1 | h1
      · subst h1
        cases hacc : max_step acc y with
        | none => exact absurd hacc (max_step_ne_none acc y)
        | some a2 =>
          obtain ⟨_, hs2, _⟩ := max_step_some acc y a2 hacc
          exact le_trans hs2 (ih3 a2 hacc)
      · exact ih2 y h1
    · intro a ha
      cases hacc : max_step acc x with
      | none => exact absurd hacc (max_step_ne_none acc x)
      | some a2 =>
        obtain ⟨_, _, hs3⟩ := max_step_some acc x a2 hacc
        exact le_trans (hs3 a ha) (ih3 a2 hacc)

/-! ### Selection of the maximal-count pair -/

theorem mem_count_entries (chunks : List (List TokenId)) (p : TPair) (c : Nat) :
    (p, c) ∈ count_entries chunks ↔
      p ∈ all_pairs chunks ∧ c = count_pair chunks p := by
  simp only [count_entries, List.mem_map, Prod.mk.injEq, List.mem_dedup]
  constructor
  · rintro ⟨q, hq, rfl, rfl⟩
    exact ⟨hq, rfl⟩
  · rintro ⟨h1, rfl⟩
    exact ⟨p, h1, rfl, rfl⟩

theorem valid_ord_id : ValidOrd ord_id :=
  fun _ => List.Perm.refl _

theorem select_none_iff (ord : List (List TokenId) → List (TPair × Nat))
    (hord : ValidOrd ord) (chunks : List (List TokenId)) :
    select ord chunks = none ↔ all_pairs chunks = [] := by
  unfold select
  constructor
  · intro h
    have hmax : max_by_key (ord chunks) = none := by
      cases hm : max_by_key (ord chunks) with
      | none => rfl
      | some b => rw [hm] at h; simp at h
    unfold max_by_key at hmax
    obtain ⟨_, hnil⟩ := max_fold_none (ord chunks) none hmax
    have hp := hord chunks
    rw [hnil] at hp
    have h2 : count_entries chunks = [] := hp.nil_eq.symm
    unfold count_entries at h2
    rw [List.map_eq_nil_iff] at h2
    exact (List.dedup_eq_nil _).mp h2
  · intro h
    have hce : count_entries chunks = [] := by
      unfold count_entries
      rw [h]
      simp
    have hp := hord chunks
    rw [hce] at hp
    rw [hp.eq_nil]
    rfl

theorem select_some_spec (ord : List (List TokenId) → List (TPair × Nat))
    (hord : ValidOrd ord) (chunks : List (List TokenId)) (p : TPair)
    (hs : select ord chunks = some p) :
    p ∈ all_pairs chunks ∧
      ∀ q ∈ all_pairs chunks, count_pair chunks q ≤ count_pair chunks p := by
  unfold select at hs
  cases hm : max_by_key (ord chunks) with
  | none => rw [hm] at hs; cases hs
  | some b =>
    rw [hm] at hs
    simp only [Option.map_some'] at hs
    cases hs
    obtain ⟨b1, b2⟩ := b
    unfold max_by_key at hm
    obtain ⟨hmem, hmax, _⟩ := max_fold_spec (ord chunks) none (b1, b2) hm
    rcases hmem with hmem | hmem
    · have hb : (b1, b2) ∈ count_entries chunks := (hord chunks).mem_iff.mp hmem
      obtain ⟨hb1, hb2⟩ := (mem_count_entries chunks b1 b2).mp hb
      refine ⟨hb1, ?_⟩
      intro q hq
      have hqe : (q, count_pair chunks q) ∈ count_entries chunks :=
        (mem_count_entries chunks q _).mpr ⟨hq, rfl⟩
      have hqo : (q, count_pair chunks q) ∈ ord chunks := (hord chunks).mem_iff.mpr hqe
      have hle := hmax _ hqo
      rw [hb2] at hle
      exact hle
    · cases hmem

/-! ### The per-chunk encoder loop -/

theorem encode_chunk_loop_length (m : Merges) :
    ∀ (fuel : Nat) (c : List TokenId), (encode_chunk_loop m fuel c).length ≤ c.length
  | 0, _ => le_refl _
  | fuel + 1, c => by
    cases hf : find_lowest_token_merge_in_chunk m c with
    | none => simp [encode_chunk_loop, hf]
    | some x =>
      obtain ⟨pr, tid⟩ := x
      simp only [encode_chunk_loop, hf]
      have h1 := find_lowest_some m c pr tid hf
      have h2 := length_merge_pair_lt pr tid c h1.1
      have h3 := encode_chunk_loop_length m fuel (merge_pair c pr tid)
      omega

theorem encode_chunk_loop_fix (m : Merges) :
    ∀ (fuel : Nat) (c : List TokenId), c.length ≤ fuel →
      NoTablePair m (encode_chunk_loop m fuel c)
  | 0, c, h => by
    have hc : c = [] := List.length_eq_zero.mp (Nat.le_zero.mp h)
    subst hc
    intro q hq
    simp [encode_chunk_loop, windows2] at hq
  | fuel + 1, c, h => by
    cases hf : find_lowest_token_merge_in_chunk m c with
    | none =>
      simp only [encode_chunk_loop, hf]
      exact find_lowest_none m c hf
    | some x =>
      obtain ⟨pr, tid⟩ := x
      simp only [encode_chunk_loop, hf]
      have h1 := find_lowest_some m c pr tid hf
      have h2 := length_merge_pair_lt pr tid c h1.1
      exact encode_chunk_loop_fix m fuel (merge_pair c pr tid) (by omega)

theorem encode_chunk_loop_steps (m : Merges) :
    ∀ (fuel : Nat) (c : List TokenId),
      Relation.ReflTransGen (EncStep m) c (encode_chunk_loop m fuel c)
  | 0, _ => Relation.ReflTransGen.refl
  | fuel + 1, c => by
    cases hf : find_lowest_token_merge_in_chunk m c with
    | none =>
      simp only [encode_chunk_loop, hf]
      exact Relation.ReflTransGen.refl
    | some x =>
      obtain ⟨pr, tid⟩ := x
      simp only [encode_chunk_loop, hf]
      obtain ⟨h1, h2, h3⟩ := find_lowest_some m c pr tid hf
      exact Relation.ReflTransGen.head ⟨pr, tid, h1, h2, h3, rfl⟩
        (encode_chunk_loop_steps m fuel (merge_pair c pr tid))

/-! ### The training-loop invariant -/

theorem range'_snoc (s n : Nat) : List.range' s (n + 1) = List.range' s n ++ [s + n] := by
  have h := @List.range'_concat 1 s n
  simpa using h

theorem trainInv_step (ord : List (List TokenId) → List (TPair × Nat))
    (hord : ValidOrd ord) (cur : Nat) (m : Merges)
    (chunks : List (List TokenId)) (p : TPair)
    (hinv : TrainInv cur m chunks) (hs : select ord chunks = some p) :
    TrainInv (cur + 1) (insertM m p cur)
      (chunks.map (fun c => merge_pair c p cur)) := by
  obtain ⟨hc256, hsym, hvals, hkeys⟩ := hinv
  obtain ⟨hpmem, _⟩ := select_some_spec ord hord chunks p hs
  obtain ⟨hp1, hp2⟩ : p.1 < cur ∧ p.2 < cur := by
    rw [all_pairs, List.mem_flatten] at hpmem
    obtain ⟨w, hw, hpw⟩ := hpmem
    rw [List.mem_map] at hw
    obtain ⟨c, hc, rfl⟩ := hw
    have hcomp := windows2_mem_components c p hpw
    exact ⟨hsym c hc _ hcomp.1, hsym c hc _ hcomp.2⟩
  have hpmem2 := (select_some_spec ord hord chunks p hs).1
  have hnotkey : ∀ e ∈ m, e.1 ≠ p := by
    intro e he heq
    exact (hkeys e he).1 (heq ▸ hpmem2)
  have hins : insertM m p cur = m ++ [(p, cur)] := insertM_of_not_mem m p cur hnotkey
  refine ⟨by omega, ?_, ?_, ?_⟩
  · intro c hc s hsmem
    rw [List.mem_map] at hc
    obtain ⟨c0, hc0, rfl⟩ := hc
    rcases mem_merge_pair p cur c0 s hsmem with h1 | h1
    · exact lt_trans (hsym c0 hc0 s h1) (Nat.lt_succ_self _)
    · subst h1
      exact Nat.lt_succ_self _
  · rw [hins, List.map_append]
    simp only [List.map_cons, List.map_nil]
    rw [hvals]
    have he1 : cur + 1 - 256 = (cur - 256) + 1 := by omega
    rw [he1, range'_snoc]
    have he2 : 256 + (cur - 256) = cur := by omega
    rw [he2]
  · intro e he
    rw [hins, List.mem_append] at he
    rcases he with he | he
    · obtain ⟨hk1, hk2, hk3⟩ := hkeys e he
      refine ⟨?_, Nat.lt_succ_of_lt hk2, Nat.lt_succ_of_lt hk3⟩
      intro hmem
      rw [all_pairs, List.mem_flatten] at hmem
      obtain ⟨w, hw, hqw⟩ := hmem
      rw [List.mem_map] at hw
      obtain ⟨c, hcm, rfl⟩ := hw
      rw [List.mem_map] at hcm
      obtain ⟨c0, hc0, rfl⟩ := hcm
      rcases windows2_merge_pair p cur c0 e.1 hqw with h1 | h1 | h1
      · refine hk1 ?_
        rw [all_pairs, List.mem_flatten]
        exact ⟨windows2 c0, List.mem_map_of_mem _ hc0, h1⟩
      · exact absurd h1 (Nat.ne_of_lt hk2)
      · exact absurd h1 (Nat.ne_of_lt hk3)
    · rw [List.mem_singleton] at he
      subst he
      refine ⟨?_, Nat.lt_succ_of_lt hp1, Nat.lt_succ_of_lt hp2⟩
      intro hmem
      rw [all_pairs, List.mem_flatten] at hmem
      obtain ⟨w, hw, hqw⟩ := hmem
      rw [List.mem_map] at hw
      obtain ⟨c, hcm, rfl⟩ := hw
      rw [List.mem_map] at hcm
      obtain ⟨c0, hc0, rfl⟩ := hcm
      exact merge_pair_removes p cur (Nat.ne_of_lt hp1) (Nat.ne_of_lt hp2) c0 hqw

theorem train_loop_inv (ord : List (List TokenId) → List (TPair × Nat))
    (hord : ValidOrd ord) :
    ∀ (fuel cur : Nat) (m : Merges) (chunks : List (List TokenId)),
      TrainInv cur m chunks →
      ∃ cur2, TrainInv cur2 (train_loop ord fuel cur m chunks).1
        (train_loop ord fuel cur m chunks).2
  | 0, cur, _, _, hinv => ⟨cur, hinv⟩
  | fuel + 1, cur, m, chunks, hinv => by
    cases hs : select ord chunks with
    | none =>
      simp only [train_loop, hs]
      exact ⟨cur, hinv⟩
    | some p =>
      simp only [train_loop, hs]
      exact train_loop_inv ord hord fuel (cur + 1) _ _
        (trainInv_step ord hord cur m chunks p hinv hs)

theorem train_contiguous (ord : List (List TokenId) → List (TPair × Nat))
    (hord : ValidOrd ord) (chunks : List (List TokenId))
    (hsym : SymBound 256 chunks) (vocab : Nat) :
    (train ord [] chunks vocab).map Prod.snd =
      List.range' 256 (train ord [] chunks vocab).length := by
  have hinv0 : TrainInv 256 [] chunks := by
    refine ⟨le_refl _, hsym, by simp, by simp⟩
  obtain ⟨cur2, hinv⟩ := train_loop_inv ord hord (vocab - 256) 256 [] chunks hinv0
  unfold train
  have hv := hinv.2.2.1
  have hlen : (train_loop ord (vocab - 256) 256 [] chunks).1.length = cur2 - 256 := by
    have hc := congrArg List.length hv
    simpa using hc
  rw [hv, hlen]

/-! ### Equivalence of the index-based spec scan with `merge_pair` -/

theorem drop_cons_getD :
    ∀ (l : List TokenId) (i : Nat), i < l.length →
      l.drop i = l.getD i 0 :: l.drop (i + 1)
  | [], i, h => by simp at h
  | a :: rest, 0, _ => by simp
  | a :: rest, i + 1, h => by
    simp only [List.drop_succ_cons, List.getD_cons_succ]
    exact drop_cons_getD rest i (by simpa using h)

theorem merge_scan_eq_merge_pair (pair : TPair) (newId : TokenId) (tokens : List TokenId) :
    ∀ (fuel i : Nat), tokens.length - i ≤ fuel →
      merge_scan tokens pair newId fuel i = merge_pair (tokens.drop i) pair newId
  | 0, i, h => by
    have hge : tokens.length ≤ i := by omega
    rw [List.drop_eq_nil_of_le hge]
    rfl
  | fuel + 1, i, h => by
    by_cases hi : i < tokens.length
    · rw [drop_cons_getD tokens i hi]
      by_cases hc : i + 1 < tokens.length ∧
          tokens.getD i 0 = pair.1 ∧ tokens.getD (i + 1) 0 = pair.2
      · obtain ⟨hi1, hca, hcb⟩ := hc
        rw [drop_cons_getD tokens (i + 1) hi1]
        simp only [merge_scan, if_pos hi, if_pos (⟨hi1, hca, hcb⟩ : _ ∧ _ ∧ _)]
        rw [merge_pair_cons2_pos _ _ _ _ _ ⟨hca, hcb⟩]
        rw [merge_scan_eq_merge_pair pair newId tokens fuel (i + 2) (by omega)]
      · simp only [merge_scan, if_pos hi, if_neg hc]
        rw [merge_scan_eq_merge_pair pair newId tokens fuel (i + 1) (by omega)]
        cases hd : tokens.drop (i + 1) with
        | nil =>
          rw [merge_pair_single, merge_pair_nil]
        | cons b rest =>
          have hlen : i + 1 < tokens.length := by
            have hld := congrArg List.length hd
            simp only [List.length_drop, List.length_cons] at hld
            omega
          have hb : b = tokens.getD (i + 1) 0 := by
            rw [drop_cons_getD tokens (i + 1) hlen] at hd
            exact (List.cons.injEq _ _ _ _ ▸ hd).1.symm
          rw [merge_pair_cons2_neg]
          intro hcc
          exact hc ⟨hlen, hcc.1, by rw [← hb]; exact hcc.2⟩
    · simp only [merge_scan, if_neg hi]
      rw [List.drop_eq_nil_of_le (by omega)]
      rfl

/-! ### Extensionality of the encoder in the merge table -/

theorem find_step_ext (m m2 : Merges) (h : ∀ p, lookupM m p = lookupM m2 p)
    (acc : Option (TPair × TokenId)) (pr : TPair) :
    find_step m acc pr = find_step m2 acc pr := by
  unfold find_step
  rw [h pr]

theorem find_lowest_ext (m m2 : Merges) (h : ∀ p, lookupM m p = lookupM m2 p)
    (c : List TokenId) :
    find_lowest_token_merge_in_chunk m c = find_lowest_token_merge_in_chunk m2 c := by
  unfold find_lowest_token_merge_in_chunk
  have hf : find_step m = find_step m2 :=
    funext (fun acc => funext (fun pr => find_step_ext m m2 h acc pr))
  rw [hf]

theorem encode_chunk_loop_ext (m m2 : Merges) (h : ∀ p, lookupM m p = lookupM m2 p) :
    ∀ (fuel : Nat) (c : List TokenId),
      encode_chunk_loop m fuel c = encode_chunk_loop m2 fuel c
  | 0, _ => rfl
  | fuel + 1, c => by
    simp only [encode_chunk_loop]
    rw [find_lowest_ext m m2 h c]
    cases hf : find_lowest_token_merge_in_chunk m2 c with
    | none => rfl
    | some x =>
      obtain ⟨pr, tid⟩ := x
      exact encode_chunk_loop_ext m m2 h fuel (merge_pair c pr tid)

/-! ### Size bounds for the training loop -/

theorem train_loop_length_ge (ord : List (List TokenId) → List (TPair × Nat)) :
    ∀ (fuel cur : Nat) (m : Merges) (chunks : List (List TokenId)),
      m.length ≤ (train_loop ord fuel cur m chunks).1.length
  | 0, _, _, _ => le_refl _
  | fuel + 1, cur, m, chunks => by
    cases hs : select ord chunks with
    | none =>
      simp only [train_loop, hs]
      exact le_refl _
    | some p =>
      simp only [train_loop, hs]
      exact le_trans (insertM_length_ge m p cur)
        (train_loop_length_ge ord fuel (cur + 1) _ _)

theorem train_loop_length_le (ord : List (List TokenId) → List (TPair × Nat)) :
    ∀ (fuel cur : Nat) (m : Merges) (chunks : List (List TokenId)),
      (train_loop ord fuel cur m chunks).1.length ≤ m.length + fuel
  | 0, _, _, _ => by simp [train_loop]
  | fuel + 1, cur, m, chunks => by
    cases hs : select ord chunks with
    | none =>
      simp only [train_loop, hs]
      omega
    | some p =>
      simp only [train_loop, hs]
      have h1 := train_loop_length_le ord fuel (cur + 1) (insertM m p cur)
        (chunks.map (fun c => merge_pair c p cur))
      have h2 := insertM_length_le m p cur
      omega

/-! ### The vocabulary materializer -/

theorem getD_append_left {α : Type} :
    ∀ (l1 l2 : List α) (i : Nat) (d : α), i < l1.length →
      (l1 ++ l2).getD i d = l1.getD i d
  | [], _, _, _, h => by simp at h
  | _ :: _, _, 0, _, _ => rfl
  | _ :: rest, l2, i + 1, d, h => by
    simp only [List.cons_append, List.getD_cons_succ]
    exact getD_append_left rest l2 i d (by simpa using h)

theorem getD_append_at_length {α : Type} :
    ∀ (l1 : List α) (x : α) (d : α), (l1 ++ [x]).getD l1.length d = x
  | [], _, _ => rfl
  | _ :: rest, x, d => by
    simp only [List.cons_append, List.length_cons, List.getD_cons_succ]
    exact getD_append_at_length rest x d

theorem base_ranks_length : base_ranks.length = 256 := by
  simp [base_ranks]

theorem base_ranks_getD (i : Nat) (h : i < 256) :
    base_ranks.getD i ([], 0) = ([i], i) := by
  unfold base_ranks
  rw [List.getD_eq_getElem _ _ (by simpa using h)]
  simp

theorem push_rank_length (ranks : List (List Nat × TokenId)) (e : TPair × TokenId) :
    (push_rank ranks e).length = ranks.length + 1 := by
  simp [push_rank]

theorem sorted_merges_perm (m : Merges) : (sorted_merges m).Perm m :=
  List.perm_insertionSort _ m

theorem sorted_merges_sorted (m : Merges) :
    List.Sorted (fun a b => a.2 ≤ b.2) (sorted_merges m) :=
  List.sorted_insertionSort _ m

theorem sorted_merges_map_snd (m : Merges) (h : ContiguousIds m) :
    (sorted_merges m).map Prod.snd = List.range' 256 m.length := by
  have hp : ((sorted_merges m).map Prod.snd).Perm (List.range' 256 m.length) :=
    ((sorted_merges_perm m).map Prod.snd).trans h
  have hs1 : List.Sorted (· ≤ ·) ((sorted_merges m).map Prod.snd) :=
    List.pairwise_map.mpr (sorted_merges_sorted m)
  have hs2 : List.Sorted (· ≤ ·) (List.range' 256 m.length) :=
    List.Sorted.le_of_lt (List.pairwise_lt_range' 256 m.length)
  exact List.eq_of_perm_of_sorted hp hs1 hs2

theorem sorted_merges_buildOrder (m : Merges) (h : BuildOrder m) :
    BuildOrder (sorted_merges m) :=
  fun e he => h e ((sorted_merges_perm m).mem_iff.mp he)

theorem map_snd_range'_getD :
    ∀ (l : Merges) (s : Nat), l.map Prod.snd = List.range' s l.length →
      ∀ j, j < l.length → (l.getD j ((0, 0), 0)).2 = s + j
  | [], _, _, j, hj => by simp at hj
  | e :: rest, s, hmap, 0, _ => by
    rw [List.map_cons, List.length_cons, List.range'_succ, List.cons_eq_cons] at hmap
    obtain ⟨h1, _⟩ := hmap
    simpa using h1
  | e :: rest, s, hmap, j + 1, hj => by
    rw [List.map_cons, List.length_cons, List.range'_succ, List.cons_eq_cons] at hmap
    obtain ⟨_, h2⟩ := hmap
    simp only [List.getD_cons_succ]
    have hrec := map_snd_range'_getD rest (s + 1) h2 j (by simpa using hj)
    rw [hrec]
    exact Nat.add_right_comm s 1 j

theorem build_ranks_spec :
    ∀ (l : Merges) (ranks : List (List Nat × TokenId)),
      (∀ e ∈ l, e.1.1 < e.2 ∧ e.1.2 < e.2) →
      l.map Prod.snd = List.range' ranks.length l.length →
      (l.foldl push_rank ranks).length = ranks.length + l.length ∧
      (∀ (i : Nat) (d : List Nat × TokenId), i < ranks.length →
        (l.foldl push_rank ranks).getD i d = ranks.getD i d) ∧
      (∀ j, j < l.length →
        (l.foldl push_rank ranks).getD (ranks.length + j) ([], 0) =
          (((l.foldl push_rank ranks).getD (l.getD j ((0, 0), 0)).1.1 ([], 0)).1 ++
            ((l.foldl push_rank ranks).getD (l.getD j ((0, 0), 0)).1.2 ([], 0)).1,
            ranks.length + j))
  | [], ranks, _, _ => by
    refine ⟨by simp, fun i d _ => rfl, fun j hj => by simp at hj⟩
  | e :: rest, ranks, hbo, hmap => by
    rw [List.map_cons, List.length_cons, List.range'_succ, List.cons_eq_cons] at hmap
    obtain ⟨he2, hrest⟩ := hmap
    have hlen2 : (push_rank ranks e).length = ranks.length + 1 := push_rank_length ranks e
    have hbo2 : ∀ x ∈ rest, x.1.1 < x.2 ∧ x.1.2 < x.2 :=
      fun x hx => hbo x (List.mem_cons_of_mem _ hx)
    have hmap2 : rest.map Prod.snd = List.range' (push_rank ranks e).length rest.length := by
      rw [hlen2]
      exact hrest
    obtain ⟨ih1, ih2, ih3⟩ := build_ranks_spec rest (push_rank ranks e) hbo2 hmap2
    have hfold : (e :: rest).foldl push_rank ranks = rest.foldl push_rank (push_rank ranks e) :=
      List.foldl_cons _ _
    refine ⟨?_, ?_, ?_⟩
    · rw [hfold, ih1, hlen2]
      simp only [List.length_cons]
      omega
    · intro i d hi
      rw [hfold, ih2 i d (by rw [hlen2]; omega)]
      unfold push_rank
      exact getD_append_left ranks _ i d hi
    · intro j hj
      rw [hfold]
      cases j with
      | zero =>
        have hb1 := (hbo e (List.mem_cons_self _ _)).1
        have hb2 := (hbo e (List.mem_cons_self _ _)).2
        rw [he2] at hb1 hb2
        have hstab : (rest.foldl push_rank (push_rank ranks e)).getD ranks.length ([], 0) =
            (push_rank ranks e).getD ranks.length ([], 0) :=
          ih2 ranks.length ([], 0) (by rw [hlen2]; exact Nat.lt_succ_self _)
        have hentry : (push_rank ranks e).getD ranks.length ([], 0) =
            ((ranks.getD e.1.1 ([], 0)).1 ++ (ranks.getD e.1.2 ([], 0)).1, e.2) := by
          unfold push_rank
          exact getD_append_at_length ranks _ ([], 0)
        have hs1 : (rest.foldl push_rank (push_rank ranks e)).getD e.1.1 ([], 0) =
            ranks.getD e.1.1 ([], 0) := by
          rw [ih2 e.1.1 ([], 0) (by rw [hlen2]; exact Nat.lt_succ_of_lt hb1)]
          unfold push_rank
          exact getD_append_left ranks _ e.1.1 ([], 0) hb1
        have hs2 : (rest.foldl push_rank (push_rank ranks e)).getD e.1.2 ([], 0) =
            ranks.getD e.1.2 ([], 0) := by
          rw [ih2 e.1.2 ([], 0) (by rw [hlen2]; exact Nat.lt_succ_of_lt hb2)]
          unfold push_rank
          exact getD_append_left ranks _ e.1.2 ([], 0) hb2
        simp only [List.getD_cons_zero, Nat.add_zero]
        rw [hstab, hentry, hs1, hs2, he2]
      | succ j2 =>
        have hj2 : j2 < rest.length := by
          simp only [List.length_cons] at hj
          omega
        have hrec := ih3 j2 hj2
        rw [hlen2] at hrec
        have harith : ranks.length + 1 + j2 = ranks.length + (j2 + 1) := by omega
        rw [harith] at hrec
        simp only [List.getD_cons_succ]
        exact hrec

/-! ### Claims -/

/-- C1, counterexample: the source resets `current_token` to 256 on every
call to `train` (src/_mybpe/src/lib.rs line 91).  After training on the
chunks of a text whose only pair is (97,97) with vocab_size 257, the
table has one entry (97,97) ↦ 256.  A second call on chunks with pairs
(98,98) (count 3) and (97,97) (count 2) and vocab_size 258 records
(98,98) with id 256 — not 256+k = 257 — and then reassigns (97,97) from
256 to 257, contradicting both the id-continuation and the
no-reassignment parts of the claim. -/
theorem C1_counterexample :
    lookupM (train ord_id [] [[97, 97, 97]] 257) (97, 97) = some 256 ∧
      (train ord_id [] [[97, 97, 97]] 257).length = 1 ∧
      lookupM (train ord_id (train ord_id [] [[97, 97, 97]] 257)
        [[98, 98, 98, 98], [97, 97, 97]] 258) (98, 98) = some 256 ∧
      lookupM (train ord_id (train ord_id [] [[97, 97, 97]] 257)
        [[98, 98, 98, 98], [97, 97, 97]] 258) (97, 97) = some 257 := by
  decide

set_option maxRecDepth 4000 in
/-- C1, amended: a second call to `train` never decreases the number of
entries of the merge table (the loop only inserts), but it does not
continue id assignment at 256+k: every call restarts `current_token` at
256, so whenever the call performs at least one merge the selected pair
is recorded with id 256, and a pair already in the table may therefore
be reassigned. -/
theorem C1_amended_monotone_restart (ord : List (List TokenId) → List (TPair × Nat))
    (m : Merges) (chunks : List (List TokenId)) (vocab : Nat) :
    m.length ≤ (train ord m chunks vocab).length ∧
    ∀ p, 256 < vocab → select ord chunks = some p →
      train ord m chunks vocab =
        (train_loop ord (vocab - 257) 257 (insertM m p 256)
          (chunks.map (fun c => merge_pair c p 256))).1 := by
  constructor
  · exact train_loop_length_ge ord (vocab - 256) 256 m chunks
  · intro p hv hp
    unfold train
    have hf : vocab - 256 = (vocab - 257) + 1 := by omega
    rw [hf]
    simp only [train_loop, hp]

/-- Witness for the amended C1 on a table already holding (97,97) ↦ 256
and a second text whose chunks contain only the pair (98,98). -/
theorem C1_amended_witness :
    ([((97, 97), 256)] : Merges).length ≤
        (train ord_id [((97, 97), 256)] [[98, 98]] 258).length ∧
      train ord_id [((97, 97), 256)] [[98, 98]] 258 =
        (train_loop ord_id (258 - 257) 257 (insertM [((97, 97), 256)] (98, 98) 256)
          ([[98, 98]].map (fun c => merge_pair c (98, 98) 256))).1 :=
  ⟨(C1_amended_monotone_restart ord_id [((97, 97), 256)] [[98, 98]] 258).1,
    (C1_amended_monotone_restart ord_id [((97, 97), 256)] [[98, 98]] 258).2
      (98, 98) (by decide) (by decide)⟩

/-- C2, counterexample: reachability by an arbitrary sequence of `train`
calls does not preserve the contiguous-id invariant, because each call
restarts id assignment at 256: training first on chunks of "aa"
(vocab 257) and then on chunks of "bb" (vocab 257) yields the table
{(97,97) ↦ 256, (98,98) ↦ 256}, whose value multiset is {256, 256},
not {256, 257}. -/
theorem C2_counterexample :
    ¬ ContiguousIds (train ord_id (train ord_id [] [[97, 97]] 257) [[98, 98]] 257) := by
  unfold ContiguousIds
  decide

/-- C2, amended: for a tokenizer reached from construction by a single
`train` call (starting from the empty merge table) on chunks of raw
bytes, the values of the merge table are exactly 256, …, 255+k in
learning order, where k is the number of entries — no gaps, no repeats.
Under repeated calls this can fail, because id assignment restarts at
256 on every call. -/
theorem C2_amended_single_train_contiguous
    (ord : List (List TokenId) → List (TPair × Nat)) (hord : ValidOrd ord)
    (chunks : List (List TokenId)) (hsym : SymBound 256 chunks) (vocab : Nat) :
    (train ord [] chunks vocab).map Prod.snd =
      List.range' 256 (train ord [] chunks vocab).length :=
  train_contiguous ord hord chunks hsym vocab

/-- Witness for the amended C2 on byte chunks of one text. -/
theorem C2_amended_witness :
    (train ord_id [] [[97, 97, 98]] 258).map Prod.snd =
      List.range' 256 (train ord_id [] [[97, 97, 98]] 258).length :=
  C2_amended_single_train_contiguous ord_id valid_ord_id [[97, 97, 98]]
    (by unfold SymBound; decide) 258

/-- C3: in every iteration of the training loop, for any valid iteration
order of the count map, the selected pair occurs adjacently in the
chunks and its count is maximal among all adjacent pairs; it is recorded
with the current next id, the merge is applied to every chunk, and the
next id is incremented; if no adjacent pair exists (all chunks of length
at most 1, or no chunks) the loop stops early. -/
theorem C3_train_step (ord : List (List TokenId) → List (TPair × Nat))
    (hord : ValidOrd ord) (chunks : List (List TokenId)) :
    (select ord chunks = none ↔ all_pairs chunks = []) ∧
    (∀ p, select ord chunks = some p →
      p ∈ all_pairs chunks ∧
        ∀ q ∈ all_pairs chunks, count_pair chunks q ≤ count_pair chunks p) ∧
    (∀ (fuel cur : Nat) (m : Merges),
      (∀ p, select ord chunks = some p →
        train_loop ord (fuel + 1) cur m chunks =
          train_loop ord fuel (cur + 1) (insertM m p cur)
            (chunks.map (fun c => merge_pair c p cur))) ∧
      (select ord chunks = none →
        train_loop ord (fuel + 1) cur m chunks = (m, chunks))) := by
  refine ⟨select_none_iff ord hord chunks,
    fun p hp => select_some_spec ord hord chunks p hp, ?_⟩
  intro fuel cur m
  constructor
  · intro p hp
    simp only [train_loop, hp]
  · intro hn
    simp only [train_loop, hn]

/-- Witness for C3 on the chunks of "aaa": the selected pair is (97,97)
and its count (2) is maximal. -/
theorem C3_train_step_witness :
    select ord_id [[97, 97, 97]] = some (97, 97) ∧
      (97, 97) ∈ all_pairs [[97, 97, 97]] ∧
      ∀ q ∈ all_pairs [[97, 97, 97]],
        count_pair [[97, 97, 97]] q ≤ count_pair [[97, 97, 97]] (97, 97) :=
  ⟨by decide, (C3_train_step ord_id valid_ord_id [[97, 97, 97]]).2.1 (97, 97) (by decide)⟩

/-- C4: encode processes each chunk independently: every chunk is
reduced by repeatedly applying — via the merge applier — a table-present
adjacent pair whose assigned id is smallest among all table-present
adjacent pairs of the chunk, until no adjacent pair of the chunk is in
the table; the final result is the concatenation of the chunks' final
symbol sequences in original chunk order. -/
theorem C4_encode_greedy (m : Merges) (chunks : List (List TokenId)) (c : List TokenId) :
    encode m chunks = (chunks.map (encode_chunk m)).flatten ∧
      Relation.ReflTransGen (EncStep m) c (encode_chunk m c) ∧
      NoTablePair m (encode_chunk m c) :=
  ⟨rfl, encode_chunk_loop_steps m c.length c,
    encode_chunk_loop_fix m c.length c (le_refl _)⟩

/-- C5: the source's merge applier `merge_pair` equals the spec's
reference definition (index-based left-to-right scan: on a match emit
the replacement id and advance by 2, otherwise emit the current symbol
and advance by 1), so every non-overlapping left-to-right occurrence of
the pair is collapsed in a single pass with stable order; being a pure
function, it produces a new list and does not mutate its input. -/
theorem C5_merge_applier_spec (tokens : List TokenId) (pair : TPair) (newId : TokenId) :
    merge_pair_spec tokens pair newId = merge_pair tokens pair newId := by
  unfold merge_pair_spec
  have h := merge_scan_eq_merge_pair pair newId tokens tokens.length 0 (by omega)
  simpa using h

/-- C6: for a merge table satisfying the spec's section-3 invariant
(values exactly {256,…,255+k}, each merge's components assigned before
the merge itself), `get_mergeable_ranks` emits the 256 single-byte
entries ([i], i) for i = 0..255, then every learned merge in increasing
id order (entry j carrying id 256+j); each learned entry's byte
sequence is the concatenation of the byte sequences found earlier in
the same output at its pair's component indices, so its byte length is
the sum of the two component byte lengths, while entries with id below
256 have byte length 1. -/
theorem C6_mergeable_ranks (m : Merges) (hc : ContiguousIds m) (hb : BuildOrder m) :
    (get_mergeable_ranks m).length = 256 + m.length ∧
    (∀ i : Nat, i < 256 →
      (get_mergeable_ranks m).getD i ([], 0) = ([i], i) ∧
      ((get_mergeable_ranks m).getD i ([], 0)).1.length = 1) ∧
    (∀ j : Nat, j < m.length →
      ((sorted_merges m).getD j ((0, 0), 0)).2 = 256 + j ∧
      ((sorted_merges m).getD j ((0, 0), 0)).1.1 < 256 + j ∧
      ((sorted_merges m).getD j ((0, 0), 0)).1.2 < 256 + j ∧
      (get_mergeable_ranks m).getD (256 + j) ([], 0) =
        (((get_mergeable_ranks m).getD ((sorted_merges m).getD j ((0, 0), 0)).1.1 ([], 0)).1 ++
          ((get_mergeable_ranks m).getD ((sorted_merges m).getD j ((0, 0), 0)).1.2 ([], 0)).1,
          256 + j) ∧
      ((get_mergeable_ranks m).getD (256 + j) ([], 0)).1.length =
        ((get_mergeable_ranks m).getD ((sorted_merges m).getD j ((0, 0), 0)).1.1 ([], 0)).1.length +
          ((get_mergeable_ranks m).getD ((sorted_merges m).getD j ((0, 0), 0)).1.2 ([], 0)).1.length) := by
  have hms : (sorted_merges m).map Prod.snd = List.range' 256 m.length :=
    sorted_merges_map_snd m hc
  have hbo : BuildOrder (sorted_merges m) := sorted_merges_buildOrder m hb
  have hlenS : (sorted_merges m).length = m.length := (sorted_merges_perm m).length_eq
  have hmap : (sorted_merges m).map Prod.snd =
      List.range' base_ranks.length (sorted_merges m).length := by
    rw [base_ranks_length, hlenS]
    exact hms
  obtain ⟨h1, h2, h3⟩ := build_ranks_spec (sorted_merges m) base_ranks
    (fun e he => hbo e he) hmap
  have hR : get_mergeable_ranks m = (sorted_merges m).foldl push_rank base_ranks := rfl
  refine ⟨?_, ?_, ?_⟩
  · rw [hR, h1, base_ranks_length, hlenS]
  · intro i hi
    have hstab := h2 i ([], 0) (by rw [base_ranks_length]; exact hi)
    rw [hR, hstab, base_ranks_getD i hi]
    exact ⟨rfl, rfl⟩
  · intro j hj
    have hjS : j < (sorted_merges m).length := by rw [hlenS]; exact hj
    have hid : ((sorted_merges m).getD j ((0, 0), 0)).2 = 256 + j := by
      apply map_snd_range'_getD (sorted_merges m) 256 _ j hjS
      rw [hlenS]
      exact hms
    have hmem : (sorted_merges m).getD j ((0, 0), 0) ∈ sorted_merges m := by
      rw [List.getD_eq_getElem _ _ hjS]
      exact List.getElem_mem _
    obtain ⟨hcomp1, hcomp2⟩ := hbo _ hmem
    rw [hid] at hcomp1 hcomp2
    have hentry := h3 j hjS
    rw [base_ranks_length] at hentry
    refine ⟨hid, hcomp1, hcomp2, ?_, ?_⟩
    · rw [hR]
      exact hentry
    · rw [hR, hentry]
      simp [List.length_append]

/-- Witness for C6 on a two-merge table satisfying the invariant. -/
theorem C6_mergeable_ranks_witness :
    ContiguousIds [((97, 97), 256), ((256, 98), 257)] ∧
      BuildOrder [((97, 97), 256), ((256, 98), 257)] ∧
      (get_mergeable_ranks [((97, 97), 256), ((256, 98), 257)]).length = 256 + 2 :=
  ⟨by unfold ContiguousIds; decide, by unfold BuildOrder; decide,
    (C6_mergeable_ranks [((97, 97), 256), ((256, 98), 257)]
      (by unfold ContiguousIds; decide) (by unfold BuildOrder; decide)).1⟩

/-- C7: encode is a pure, deterministic function of the text and the
merge table viewed as a mapping: two tables with the same lookup
function — however they were built — produce the same token sequence on
the same chunks, and the tokenizer state is not modified (in this
functional embedding `encode` only reads the table). -/
theorem C7_encode_pure (m m2 : Merges) (h : ∀ p, lookupM m p = lookupM m2 p)
    (chunks : List (List TokenId)) : encode m chunks = encode m2 chunks := by
  unfold encode
  congr 1
  apply List.map_congr_left
  intro c _
  unfold encode_chunk
  exact encode_chunk_loop_ext m m2 h c.length c

/-- Witness for C7: two tables with the same entries in different
insertion orders encode the same chunks identically. -/
theorem C7_encode_pure_witness :
    (∀ p : TPair, lookupM [((97, 97), 256), ((98, 98), 257)] p =
        lookupM [((98, 98), 257), ((97, 97), 256)] p) ∧
      encode [((97, 97), 256), ((98, 98), 257)] [[97, 97, 98, 98]] =
        encode [((98, 98), 257), ((97, 97), 256)] [[97, 97, 98, 98]] := by
  have h : ∀ p : TPair, lookupM [((97, 97), 256), ((98, 98), 257)] p =
      lookupM [((98, 98), 257), ((97, 97), 256)] p := by
    intro p
    by_cases h1 : ((97, 97) : TPair) = p
    · subst h1; decide
    · by_cases h2 : ((98, 98) : TPair) = p
      · subst h2; decide
      · simp [lookupM, h1, h2]
  exact ⟨h, C7_encode_pure _ _ h [[97, 97, 98, 98]]⟩

/-- C8: training with vocab_size at most 256, or on chunks with no
adjacent pair, is not an error: it returns with the merge table exactly
unchanged; in general a `train` call adds at most vocab_size - 256
merges, so training that exhausts the corpus stops with fewer merges
than requested. -/
theorem C8_train_noop (ord : List (List TokenId) → List (TPair × Nat))
    (hord : ValidOrd ord) (m : Merges) (chunks : List (List TokenId)) (vocab : Nat) :
    (vocab ≤ 256 → train ord m chunks vocab = m) ∧
    (all_pairs chunks = [] → train ord m chunks vocab = m) ∧
    (train ord m chunks vocab).length ≤ m.length + (vocab - 256) := by
  refine ⟨?_, ?_, ?_⟩
  · intro hv
    unfold train
    rw [Nat.sub_eq_zero_of_le hv]
    rfl
  · intro hp
    have hs : select ord chunks = none := (select_none_iff ord hord chunks).mpr hp
    unfold train
    cases hf : vocab - 256 with
    | zero => rfl
    | succ f =>
      have hstep : train_loop ord (f + 1) 256 m chunks = (m, chunks) := by
        simp only [train_loop, hs]
      rw [hstep]
  · exact train_loop_length_le ord (vocab - 256) 256 m chunks

/-- Witness for C8: vocab 256 is a no-op on a pair-rich text, a
single-byte chunk is a no-op at any vocab, and a large vocab adds at
most vocab - 256 merges. -/
theorem C8_train_noop_witness :
    train ord_id [] [[97, 97]] 256 = [] ∧ train ord_id [] [[97]] 300 = [] ∧
      (train ord_id [] [[97, 97]] 300).length ≤ 0 + (300 - 256) :=
  ⟨(C8_train_noop ord_id valid_ord_id [] [[97, 97]] 256).1 (le_refl _),
    (C8_train_noop ord_id valid_ord_id [] [[97]] 300).2.1 (by decide),
    (C8_train_noop ord_id valid_ord_id [] [[97, 97]] 300).2.2⟩

/-- C9: for every tokenizer state, encoding the empty string is not an
error and yields the empty token sequence: the chunker produces no
chunks from empty text (its chunks are non-empty substrings covering
the input), and `encode` of no chunks is the empty sequence. -/
theorem C9_encode_empty (m : Merges) (chunks : List (List TokenId))
    (h : Chunking [] chunks) : encode m chunks = [] := by
  obtain ⟨hflat, hne⟩ := h
  have hnil : chunks = [] := by
    cases chunks with
    | nil => rfl
    | cons c rest =>
      exfalso
      rw [List.flatten_cons] at hflat
      have hc := List.append_eq_nil.mp hflat
      exact hne c (List.mem_cons_self _ _) hc.1
  subst hnil
  rfl

/-- Witness for C9 at the empty chunk decomposition and a nonempty table. -/
theorem C9_encode_empty_witness :
    Chunking [] ([] : List (List TokenId)) ∧
      encode [((97, 97), 256)] [] = [] :=
  ⟨⟨rfl, by simp⟩, C9_encode_empty [((97, 97), 256)] [] ⟨rfl, by simp⟩⟩

/-- C10: the encoder's per-chunk loop terminates: whenever
`find_lowest_token_merge_in_chunk` returns a pair, that pair occurs
adjacently in the chunk, so applying `merge_pair` strictly decreases
the chunk's length; hence `encode` is a total function and its output
has at most as many token ids as the text has bytes. -/
theorem C10_encode_terminates (m : Merges) (text : List Nat)
    (chunks : List (List TokenId)) (h : Chunking text chunks) :
    (∀ (c : List TokenId) (pr : TPair) (tid : TokenId),
      find_lowest_token_merge_in_chunk m c = some (pr, tid) →
        pr ∈ windows2 c ∧ (merge_pair c pr tid).length < c.length) ∧
    (encode m chunks).length ≤ text.length := by
  constructor
  · intro c pr tid hf
    have h1 := find_lowest_some m c pr tid hf
    exact ⟨h1.1, length_merge_pair_lt pr tid c h1.1⟩
  · have hlen : ∀ ch : List (List TokenId), (encode m ch).length ≤ ch.flatten.length := by
      intro ch
      induction ch with
      | nil => simp [encode]
      | cons c rest ih =>
        simp only [encode, List.map_cons, List.flatten_cons, List.length_append] at ih ⊢
        have h2 : (encode_chunk m c).length ≤ c.length :=
          encode_chunk_loop_length m c.length c
        omega
    rw [← h.1]
    exact hlen chunks

/-- Witness for C10 on the two-byte text "hi" in one chunk. -/
theorem C10_encode_terminates_witness :
    Chunking [104, 105] [[104, 105]] ∧
      (encode [((104, 105), 256)] [[104, 105]]).length ≤ [104, 105].length :=
  ⟨⟨rfl, by simp⟩,
    (C10_encode_terminates [((104, 105), 256)] [104, 105] [[104, 105]] ⟨rfl, by simp⟩).2⟩

end MyBpe
